import Mathlib

/-!
Verification of the Satisfier CNF satisfiability engine.

The Go source (satisfier.go, plus the iterative variant) is shallowly embedded:
clauses are lists of integers, CNF formulas are lists of clauses, and the
Go `map[int]bool` assignment is modelled as an association list updated in
place.  Go's `for` loops become fuelled structural recursion; every fuel
parameter is shown sufficient, so the embedding is total and executable.
Where Go iterates over a map in unspecified order (PureLiteralElimination),
the model fixes first-occurrence order of the literals; the counts it tests
are the snapshot counts, exactly as in the source.
-/

namespace Satisfier

/-- A clause is a slice of integers representing literals (satisfier.go:15). -/
abbrev Clause := List Int

/-- CNF is a conjunction of clauses (satisfier.go:16). -/
abbrev CNF := List Clause

/-- The Go `map[int]bool` assignment, as an association list: the key order
records insertion order, and `setA` updates in place like a map write. -/
abbrev Assg := List (Int × Bool)

/-- Map lookup: first binding of the key, if any. -/
def lookupA : Assg → Int → Option Bool
  | [], _ => none
  | (k, b) :: rest, x => if k = x then some b else lookupA rest x

/-- Map write `m[k] = b`: overwrite the existing binding, else append. -/
def setA (a : Assg) (k : Int) (b : Bool) : Assg :=
  match a with
  | [] => [(k, b)]
  | (k', b') :: rest => if k' = k then (k, b) :: rest else (k', b') :: setA rest k b

/-- Helper function: absolute value (satisfier.go:153-158). -/
def abs (x : Int) : Int := if x < 0 then -x else x

/-- The skip test in `assign`: the literal matches `(variable, value)`
(satisfier.go:102). -/
def litSkip (v : Int) (value : Bool) (literal : Int) : Bool :=
  (literal == v && value) || (literal == -v && !value)

/-- Assign simplifies the CNF given a variable assignment (satisfier.go:96-114):
clauses containing the matching literal are dropped, all other clauses keep
exactly their literals different from `variable` and `-variable`. -/
def assign (cnf : CNF) (v : Int) (value : Bool) : CNF :=
  (cnf.filter (fun clause => !clause.any (litSkip v value))).map
    (fun clause => clause.filter (fun l => l != v && l != -v))

/-- First unit clause of the formula, scanning in order (satisfier.go:53-54). -/
def findUnit : CNF → Option Int
  | [] => none
  | c :: rest =>
    match c with
    | [l] => some l
    | _ => findUnit rest

/-- The set of variables (absolute values of literals) of a formula. -/
def cnfVars (cnf : CNF) : Finset Int :=
  (cnf.flatten.map abs).toFinset

/-- Number of distinct variables of a formula. -/
def varCount (cnf : CNF) : Nat := (cnfVars cnf).card

/-- The `for { ... }` unit-propagation loop of satisfier.go:51-67, with fuel.
Each iteration finds the first unit clause, records its forced value and
rewrites the formula via `assign`.  `upLoopF_no_unit` shows the fuel used by
`UnitPropagation` always reaches the fixed point. -/
def upLoopF : Nat → CNF → Assg → CNF × Assg
  | 0, cnf, a => (cnf, a)
  | fuel + 1, cnf, a =>
    match findUnit cnf with
    | none => (cnf, a)
    | some unit =>
      upLoopF fuel (assign cnf (abs unit) (decide (0 < unit)))
        (setA a (abs unit) (decide (0 < unit)))

/-- UnitPropagation simplifies the CNF by assigning values for unit clauses
(satisfier.go:50-74); the Bool is the `ok` result, false exactly when the
simplified formula contains an empty clause (conflict). -/
def UnitPropagation (cnf : CNF) (a : Assg) : CNF × Assg × Bool :=
  let r := upLoopF (varCount cnf + 1) cnf a
  (r.1, r.2, !r.1.any (fun clause => clause.isEmpty))

/-- Total occurrence count of one literal over all clauses, as built into
`literalCount` in satisfier.go:78-83. -/
def countLit (cnf : CNF) (l : Int) : Nat :=
  cnf.foldr (fun c n => c.count l + n) 0

/-- Deduplicate keeping first occurrences: the distinct keys of
`literalCount`, in first-occurrence order (the model's resolution of Go's
unspecified map iteration order). -/
def dedupF : List Int → List Int → List Int
  | [], _ => []
  | x :: xs, seen => if x ∈ seen then dedupF xs seen else x :: dedupF xs (x :: seen)

/-- The distinct literals of a formula in first-occurrence order. -/
def litsList (cnf : CNF) : List Int := dedupF cnf.flatten []

/-- The loop body of PureLiteralElimination (satisfier.go:84-91): for each
distinct literal, test purity against the snapshot counts and, if pure,
record the polarity and rewrite the current formula via `assign`. -/
def pleAux (snap : CNF) : List Int → CNF × Assg → CNF × Assg
  | [], st => st
  | l :: ls, (cnf, a) =>
    if 0 < countLit snap l && countLit snap (-l) == 0 then
      pleAux snap ls (assign cnf (abs l) (decide (0 < l)), setA a (abs l) (decide (0 < l)))
    else
      pleAux snap ls (cnf, a)

/-- PureLiteralElimination simplifies CNF by assigning values for pure
literals (satisfier.go:77-93). -/
def PureLiteralElimination (cnf : CNF) (a : Assg) : CNF × Assg :=
  pleAux cnf (litsList cnf) (cnf, a)

/-- Branch-variable selection (satisfier.go:133-139): the variable of the
first literal of the first nonempty clause, defaulting to the zero value of
the Go zero-initialized declaration. -/
def branchVar : CNF → Int
  | [] => 0
  | c :: rest =>
    match c with
    | [] => branchVar rest
    | l :: _ => abs l

/-- DPLL implements the main algorithm (satisfier.go:117-150), with fuel.
The assignment map is shared exactly as in Go: the false branch starts from
the map returned by the failed true branch.  `DPLL_isSome` shows the fuel
used by `DPLL` is always sufficient. -/
def DPLLf : Nat → CNF → Assg → Option (Bool × Assg)
  | 0, _, _ => none
  | fuel + 1, cnf, a =>
    match UnitPropagation cnf a with
    | (_, a1, false) => some (false, a1)
    | (cnf1, a1, true) =>
      let r2 := PureLiteralElimination cnf1 a1
      if r2.1 = [] then some (true, r2.2)
      else
        let v := branchVar r2.1
        match DPLLf fuel (assign r2.1 v true) (setA r2.2 v true) with
        | none => none
        | some (true, result) => some (true, result)
        | some (false, a4) =>
          DPLLf fuel (assign r2.1 v false) (setA a4 v false)

/-- DPLL with its canonical (always sufficient) fuel. -/
def DPLL (cnf : CNF) (a : Assg) : Option (Bool × Assg) :=
  DPLLf (varCount cnf + 1) cnf a

/-- copyAssignment (part_001:163-169); in the pure model a value copy is the
value itself. -/
def copyAssignment (a : Assg) : Assg := a

/-- iterativeDPLL's explicit work stack loop (part_001:111-161), with fuel.
Each pop applies unit propagation and pure-literal elimination to its own
snapshot, answers SAT when its formula empties, and otherwise pushes the
false branch then the true branch so the true branch is popped first; the
branch variable itself is never recorded in the snapshots (as in the Go
source).  On an empty stack the pristine initial assignment is returned. -/
def iterLoopF : Nat → List (CNF × Assg) → Assg → Option (Bool × Assg)
  | 0, _, _ => none
  | _ + 1, [], a0 => some (false, a0)
  | fuel + 1, (cnf, a) :: rest, a0 =>
    match UnitPropagation cnf a with
    | (_, _, false) => iterLoopF fuel rest a0
    | (cnf1, a1, true) =>
      let r2 := PureLiteralElimination cnf1 a1
      if r2.1 = [] then some (true, r2.2)
      else
        let v := branchVar r2.1
        iterLoopF fuel
          ((assign r2.1 v true, copyAssignment r2.2)
            :: (assign r2.1 v false, copyAssignment r2.2) :: rest) a0

/-- Fuel measure for the iterative work stack: strictly decreases at every
pop, so `iterFuel` pops always suffice (`iterLoopF_run`). -/
def iterFuel : List (CNF × Assg) → Nat
  | [] => 0
  | (cnf, _) :: rest => 3 ^ varCount cnf + iterFuel rest

/-- iterativeDPLL (part_001:111-161) with its canonical sufficient fuel:
the initial stack holds one independent copy of the input pair. -/
def iterativeDPLL (cnf : CNF) (a : Assg) : Option (Bool × Assg) :=
  iterLoopF (iterFuel [(cnf, a)] + 1) [(cnf, copyAssignment a)] a

/-- Modelled from the spec: the snapshot-respecting variant of recursive
DPLL described in §4.5 ("each exploration ... recurses/continues with an
assignment snapshot independent of the sibling branch"): identical to
`DPLLf` except that the false branch restarts from the pre-branch
assignment snapshot instead of the map returned by the failed true branch. -/
def DPLLsnapf : Nat → CNF → Assg → Option (Bool × Assg)
  | 0, _, _ => none
  | fuel + 1, cnf, a =>
    match UnitPropagation cnf a with
    | (_, a1, false) => some (false, a1)
    | (cnf1, a1, true) =>
      let r2 := PureLiteralElimination cnf1 a1
      if r2.1 = [] then some (true, r2.2)
      else
        let v := branchVar r2.1
        match DPLLsnapf fuel (assign r2.1 v true) (setA r2.2 v true) with
        | none => none
        | some (true, result) => some (true, result)
        | some (false, _) =>
          DPLLsnapf fuel (assign r2.1 v false) (setA r2.2 v false)

/-- The snapshot-respecting recursive search with canonical fuel. -/
def DPLLsnap (cnf : CNF) (a : Assg) : Option (Bool × Assg) :=
  DPLLsnapf (varCount cnf + 1) cnf a

/-- A positive literal is true under a total valuation iff its variable is;
a negated literal iff its variable is not. -/
def evalLit (τ : Int → Bool) (l : Int) : Bool :=
  if 0 < l then τ l else !τ (-l)

/-- A clause (disjunction) is true iff some literal is. -/
def evalClause (τ : Int → Bool) (c : Clause) : Bool := c.any (evalLit τ)

/-- A CNF (conjunction) is true iff every clause is. -/
def evalCNF (τ : Int → Bool) (cnf : CNF) : Bool := cnf.all (evalClause τ)

/-- A literal is made true by a partial assignment map: a positive literal
whose variable maps to true, or a negative literal whose variable maps to
false. -/
def litTrue (m : Assg) (l : Int) : Prop :=
  (0 < l ∧ lookupA m l = some true) ∨ (l < 0 ∧ lookupA m (-l) = some false)

/-- Every clause contains at least one literal made true by the map. -/
def cnfSat (m : Assg) (cnf : CNF) : Prop :=
  ∀ c ∈ cnf, ∃ l ∈ c, litTrue m l

/-- The data-model invariant that literal 0 is never produced (spec §3). -/
def noZero (cnf : CNF) : Prop := ∀ c ∈ cnf, ∀ l ∈ c, l ≠ (0 : Int)

/-! ### Basic lemmas about the assignment map and `abs` -/

theorem lookupA_setA_self (a : Assg) (k : Int) (b : Bool) :
    lookupA (setA a k b) k = some b := by
  induction a with
  | nil => simp [setA, lookupA]
  | cons p rest ih =>
    obtain ⟨k', b'⟩ := p
    by_cases h : k' = k
    · simp [setA, h, lookupA]
    · simp [setA, h, lookupA, ih]

theorem lookupA_setA_ne (a : Assg) (k k' : Int) (b : Bool) (h : k' ≠ k) :
    lookupA (setA a k b) k' = lookupA a k' := by
  induction a with
  | nil => simp [setA, lookupA, Ne.symm h]
  | cons p rest ih =>
    obtain ⟨k₀, b₀⟩ := p
    by_cases hk : k₀ = k
    · subst hk
      simp [setA, lookupA, Ne.symm h]
    · simp only [setA, if_neg hk, lookupA]
      by_cases hk' : k₀ = k'
      · simp [hk']
      · simp [hk', ih]

theorem abs_nonneg (x : Int) : 0 ≤ abs x := by
  simp only [abs]; split <;> omega

theorem abs_eq_abs_iff (x y : Int) : abs x = abs y ↔ x = y ∨ x = -y := by
  simp only [abs]; split <;> split <;> omega

theorem abs_abs (x : Int) : abs (abs x) = abs x := by
  by_cases h : x < 0
  · have h2 : ¬ (-x < 0) := by omega
    simp [abs, h, h2]
  · simp [abs, h]

theorem abs_pos_of_ne_zero {x : Int} (h : x ≠ 0) : 0 < abs x := by
  simp only [abs]; split <;> omega

theorem ne_and_ne_neg_iff_abs_ne (l v : Int) : (l ≠ v ∧ l ≠ -v) ↔ abs l ≠ abs v := by
  simp only [abs, ne_eq]
  split <;> split <;> omega

/-! ### Lemmas about `assign` -/

theorem mem_assign_iff {cnf : CNF} {v : Int} {value : Bool} {c' : Clause} :
    c' ∈ assign cnf v value ↔
      ∃ c ∈ cnf, (∀ l ∈ c, litSkip v value l = false) ∧
        c' = c.filter (fun l => l != v && l != -v) := by
  simp only [assign, List.mem_map, List.mem_filter, Bool.not_eq_true', List.any_eq_false,
    Bool.not_eq_true]
  constructor
  · rintro ⟨c, ⟨hc, hskip⟩, rfl⟩
    exact ⟨c, hc, hskip, rfl⟩
  · rintro ⟨c, hc, hskip, rfl⟩
    exact ⟨c, ⟨hc, hskip⟩, rfl⟩

theorem mem_flatten_assign {cnf : CNF} {v : Int} {value : Bool} {l : Int}
    (h : l ∈ (assign cnf v value).flatten) :
    l ∈ cnf.flatten ∧ l ≠ v ∧ l ≠ -v := by
  rw [List.mem_flatten] at h
  obtain ⟨c', hc', hl⟩ := h
  rw [mem_assign_iff] at hc'
  obtain ⟨c, hc, -, rfl⟩ := hc'
  rw [List.mem_filter] at hl
  refine ⟨List.mem_flatten.mpr ⟨c, hc, hl.1⟩, ?_⟩
  have := hl.2
  simp only [bne_iff_ne, ne_eq, Bool.and_eq_true, decide_eq_true_eq] at this
  simpa using this

theorem cnfVars_assign_subset (cnf : CNF) (v : Int) (value : Bool) :
    cnfVars (assign cnf v value) ⊆ cnfVars cnf := by
  intro x hx
  simp only [cnfVars, List.mem_toFinset, List.mem_map] at hx ⊢
  obtain ⟨l, hl, rfl⟩ := hx
  exact ⟨l, (mem_flatten_assign hl).1, rfl⟩

theorem abs_notMem_cnfVars_assign (cnf : CNF) (v : Int) (value : Bool) :
    abs v ∉ cnfVars (assign cnf v value) := by
  intro hx
  simp only [cnfVars, List.mem_toFinset, List.mem_map] at hx
  obtain ⟨l, hl, habs⟩ := hx
  have h2 := (mem_flatten_assign hl).2
  exact ((ne_and_ne_neg_iff_abs_ne l v).mp h2) habs

theorem mem_cnfVars_iff {cnf : CNF} {x : Int} :
    x ∈ cnfVars cnf ↔ ∃ l ∈ cnf.flatten, abs l = x := by
  simp only [cnfVars, List.mem_toFinset, List.mem_map]

theorem abs_mem_cnfVars {cnf : CNF} {l : Int} (h : l ∈ cnf.flatten) :
    abs l ∈ cnfVars cnf :=
  mem_cnfVars_iff.mpr ⟨l, h, rfl⟩

theorem varCount_assign_lt {cnf : CNF} {v : Int} (value : Bool)
    (hv : abs v ∈ cnfVars cnf) :
    varCount (assign cnf v value) < varCount cnf := by
  have hsub : cnfVars (assign cnf v value) ⊆ (cnfVars cnf).erase (abs v) := by
    intro x hx
    rw [Finset.mem_erase]
    refine ⟨?_, cnfVars_assign_subset cnf v value hx⟩
    intro hxv
    subst hxv
    exact abs_notMem_cnfVars_assign cnf v value hx
  calc (cnfVars (assign cnf v value)).card
      ≤ ((cnfVars cnf).erase (abs v)).card := Finset.card_le_card hsub
    _ < (cnfVars cnf).card := Finset.card_erase_lt_of_mem hv

/-! ### Flatten-level facts -/

theorem flatten_assign_subset (cnf : CNF) (v : Int) (value : Bool) :
    (assign cnf v value).flatten ⊆ cnf.flatten := by
  intro l hl
  exact (mem_flatten_assign hl).1

theorem cnfVars_mono {cnf cnf' : CNF} (h : cnf'.flatten ⊆ cnf.flatten) :
    cnfVars cnf' ⊆ cnfVars cnf := by
  intro x hx
  rw [mem_cnfVars_iff] at hx ⊢
  obtain ⟨l, hl, rfl⟩ := hx
  exact ⟨l, h hl, rfl⟩

theorem noZero_iff (cnf : CNF) : noZero cnf ↔ ∀ l ∈ cnf.flatten, l ≠ (0 : Int) := by
  simp only [noZero, List.mem_flatten]
  constructor
  · rintro h l ⟨c, hc, hl⟩
    exact h c hc l hl
  · intro h c hc l hl
    exact h l ⟨c, hc, hl⟩

theorem noZero_mono {cnf cnf' : CNF} (h : cnf'.flatten ⊆ cnf.flatten)
    (hz : noZero cnf) : noZero cnf' := by
  rw [noZero_iff] at hz ⊢
  exact fun l hl => hz l (h hl)

theorem countLit_eq_zero_iff (cnf : CNF) (l : Int) :
    countLit cnf l = 0 ↔ l ∉ cnf.flatten := by
  induction cnf with
  | nil => simp [countLit]
  | cons c rest ih =>
    simp only [countLit, List.foldr_cons, List.flatten_cons, List.mem_append,
      Nat.add_eq_zero] at *
    rw [ih]
    constructor
    · rintro ⟨h1, h2⟩ h
      rcases h with h | h
      · exact absurd (List.count_pos_iff.mpr h) (by omega)
      · exact h2 h
    · intro h
      refine ⟨?_, fun hl => h (Or.inr hl)⟩
      by_contra hc
      exact h (Or.inl (List.count_pos_iff.mp (by omega)))

/-! ### `findUnit` and the unit-propagation loop -/

theorem findUnit_mem {cnf : CNF} {u : Int} (h : findUnit cnf = some u) :
    [u] ∈ cnf := by
  induction cnf with
  | nil => simp [findUnit] at h
  | cons c rest ih =>
    match c, h with
    | [l], h => simp only [findUnit, Option.some.injEq] at h; subst h; exact List.mem_cons_self ..
    | [], h => exact List.mem_cons_of_mem _ (ih h)
    | l₁ :: l₂ :: ls, h => exact List.mem_cons_of_mem _ (ih h)

theorem findUnit_isSome_of_mem {cnf : CNF} {l : Int} (h : [l] ∈ cnf) :
    findUnit cnf ≠ none := by
  induction cnf with
  | nil => simp at h
  | cons c rest ih =>
    rw [List.mem_cons] at h
    rcases h with h | h
    · subst h; simp [findUnit]
    · match c with
      | [] => simpa [findUnit] using ih h
      | [x] => simp [findUnit]
      | x :: y :: ys => simpa [findUnit] using ih h

theorem findUnit_none {cnf : CNF} (h : findUnit cnf = none) :
    ∀ c ∈ cnf, c.length ≠ 1 := by
  intro c hc hlen
  cases c with
  | nil => simp at hlen
  | cons x xs =>
    cases xs with
    | nil => exact findUnit_isSome_of_mem hc h
    | cons y ys => simp at hlen

theorem upLoopF_fst_indep (n : Nat) (cnf : CNF) (a a' : Assg) :
    (upLoopF n cnf a).1 = (upLoopF n cnf a').1 := by
  induction n generalizing cnf a a' with
  | zero => rfl
  | succ k ih =>
    simp only [upLoopF]
    cases findUnit cnf with
    | none => rfl
    | some u => exact ih _ _ _

theorem flatten_upLoopF_subset (n : Nat) (cnf : CNF) (a : Assg) :
    (upLoopF n cnf a).1.flatten ⊆ cnf.flatten := by
  induction n generalizing cnf a with
  | zero => exact fun l hl => hl
  | succ k ih =>
    simp only [upLoopF]
    cases findUnit cnf with
    | none => exact fun l hl => hl
    | some u =>
      exact fun l hl => flatten_assign_subset cnf (abs u) (decide (0 < u)) (ih _ _ hl)

theorem upLoopF_no_unit (n : Nat) (cnf : CNF) (a : Assg)
    (h : varCount cnf < n) : findUnit (upLoopF n cnf a).1 = none := by
  induction n generalizing cnf a with
  | zero => omega
  | succ k ih =>
    simp only [upLoopF]
    cases hu : findUnit cnf with
    | none => exact hu
    | some u =>
      apply ih
      have hmem : abs (abs u) ∈ cnfVars cnf := by
        rw [abs_abs]
        exact abs_mem_cnfVars (List.mem_flatten.mpr ⟨[u], findUnit_mem hu, by simp⟩)
      have := @varCount_assign_lt cnf (abs u) (decide (0 < u)) hmem
      omega

theorem upLoopF_lookup_frame (n : Nat) (cnf : CNF) (a : Assg) (k : Int)
    (hk : k ∉ cnfVars cnf) :
    lookupA (upLoopF n cnf a).2 k = lookupA a k := by
  induction n generalizing cnf a with
  | zero => rfl
  | succ m ih =>
    simp only [upLoopF]
    cases hu : findUnit cnf with
    | none => rfl
    | some u =>
      have hku : k ≠ abs u := by
        intro hk'
        subst hk'
        exact hk (abs_mem_cnfVars (List.mem_flatten.mpr ⟨[u], findUnit_mem hu, by simp⟩))
      rw [ih _ _ (fun hmem => hk (cnfVars_mono (flatten_assign_subset ..) hmem))]
      exact lookupA_setA_ne _ _ _ _ hku

/-! ### Soundness core: satisfaction transfers backwards through `assign` -/

theorem litSkip_self (l : Int) : litSkip (abs l) (decide (0 < l)) l = true := by
  simp only [litSkip, abs]
  by_cases h : l < 0
  · have h2 : ¬ (0 < l) := by omega
    simp [h, h2]
  · by_cases h3 : 0 < l
    · simp [h, h3]
    · have h4 : l = 0 := by omega
      subst h4
      simp

theorem cnfSat_assign {cnf : CNF} {v : Int} {value : Bool} {M : Assg}
    (hv : 0 < v) (hM : lookupA M v = some value)
    (h : cnfSat M (assign cnf v value)) : cnfSat M cnf := by
  intro c hc
  by_cases hskip : c.any (litSkip v value) = true
  · rw [List.any_eq_true] at hskip
    obtain ⟨l, hl, hsk⟩ := hskip
    refine ⟨l, hl, ?_⟩
    simp only [litSkip, Bool.or_eq_true, Bool.and_eq_true, beq_iff_eq,
      Bool.not_eq_true'] at hsk
    rcases hsk with ⟨rfl, hval⟩ | ⟨rfl, hval⟩
    · exact Or.inl ⟨hv, by rw [hM, hval]⟩
    · refine Or.inr ⟨by omega, ?_⟩
      rw [neg_neg, hM, hval]
  · rw [Bool.not_eq_true, List.any_eq_false] at hskip
    have hmem : c.filter (fun l => l != v && l != -v) ∈ assign cnf v value :=
      mem_assign_iff.mpr ⟨c, hc, fun l hl => Bool.eq_false_iff.mpr (hskip l hl), rfl⟩
    obtain ⟨l, hl, hlt⟩ := h _ hmem
    exact ⟨l, (List.mem_filter.mp hl).1, hlt⟩

theorem upLoopF_sound (n : Nat) (cnf : CNF) (a : Assg) (M : Assg)
    (hz : noZero cnf)
    (hagree : ∀ k, k ∉ cnfVars (upLoopF n cnf a).1 →
      lookupA M k = lookupA (upLoopF n cnf a).2 k)
    (hsat : cnfSat M (upLoopF n cnf a).1) : cnfSat M cnf := by
  induction n generalizing cnf a with
  | zero => exact hsat
  | succ m ih =>
    rcases hu : findUnit cnf with _ | u
    · have heq : upLoopF (m + 1) cnf a = (cnf, a) := by
        simp [upLoopF, hu]
      rw [heq] at hsat
      exact hsat
    · have heq : upLoopF (m + 1) cnf a =
        upLoopF m (assign cnf (abs u) (decide (0 < u)))
          (setA a (abs u) (decide (0 < u))) := by
        simp [upLoopF, hu]
      rw [heq] at hagree hsat
      have hz' : noZero (assign cnf (abs u) (decide (0 < u))) :=
        noZero_mono (flatten_assign_subset _ _ _) hz
      have hsat' := ih _ _ hz' hagree hsat
      have hu0 : u ≠ 0 := hz _ (findUnit_mem hu) u (by simp)
      have hnota : abs u ∉ cnfVars (assign cnf (abs u) (decide (0 < u))) := by
        have := abs_notMem_cnfVars_assign cnf (abs u) (decide (0 < u))
        rwa [abs_abs] at this
      have hnotres : abs u ∉
          (cnfVars (upLoopF m (assign cnf (abs u) (decide (0 < u)))
            (setA a (abs u) (decide (0 < u)))).1) := fun hmem =>
        hnota (cnfVars_mono (flatten_upLoopF_subset _ _ _) hmem)
      apply cnfSat_assign (abs_pos_of_ne_zero hu0) ?_ hsat'
      rw [hagree _ hnotres, upLoopF_lookup_frame _ _ _ _ hnota]
      exact lookupA_setA_self _ _ _

/-! ### Pure-literal elimination lemmas -/

theorem mem_dedupF {xs seen : List Int} {x : Int} (h : x ∈ dedupF xs seen) :
    x ∈ xs := by
  induction xs generalizing seen with
  | nil => simp [dedupF] at h
  | cons y ys ih =>
    simp only [dedupF] at h
    by_cases hy : y ∈ seen
    · rw [if_pos hy] at h
      exact List.mem_cons_of_mem _ (ih h)
    · rw [if_neg hy] at h
      rcases List.mem_cons.mp h with rfl | h
      · exact List.mem_cons_self ..
      · exact List.mem_cons_of_mem _ (ih h)

theorem pure_assign_mem {c : CNF} {l : Int} (hneg : -l ∉ c.flatten) :
    ∀ cl ∈ assign c (abs l) (decide (0 < l)), cl ∈ c := by
  intro cl hcl
  rw [mem_assign_iff] at hcl
  obtain ⟨c₀, hc₀, hskip, rfl⟩ := hcl
  have hfix : c₀.filter (fun x => x != abs l && x != -abs l) = c₀ := by
    rw [List.filter_eq_self]
    intro x hx
    have hx1 : x ≠ l := by
      intro hxl
      subst hxl
      have := hskip x hx
      rw [litSkip_self] at this
      simp at this
    have hx2 : x ≠ -l := fun hxl =>
      hneg (hxl ▸ List.mem_flatten.mpr ⟨c₀, hc₀, hx⟩)
    simp only [bne_iff_ne, ne_eq, Bool.and_eq_true, decide_eq_true_eq, abs]
    split <;> omega
  rw [hfix]
  exact hc₀

theorem pleAux_trigger_parts {snap : CNF} {l : Int}
    (h : (0 < countLit snap l && countLit snap (-l) == 0) = true) :
    0 < countLit snap l ∧ countLit snap (-l) = 0 := by
  rw [Bool.and_eq_true, decide_eq_true_eq, beq_iff_eq] at h
  exact h

theorem pleAux_fst_indep (snap : CNF) (ls : List Int) (c : CNF) (a a' : Assg) :
    (pleAux snap ls (c, a)).1 = (pleAux snap ls (c, a')).1 := by
  induction ls generalizing c a a' with
  | nil => rfl
  | cons l rest ih =>
    simp only [pleAux]
    by_cases h : (0 < countLit snap l && countLit snap (-l) == 0) = true
    · rw [if_pos h, if_pos h]
      exact ih _ _ _
    · rw [if_neg h, if_neg h]
      exact ih _ _ _

theorem pleAux_clauses_subset (snap : CNF) (ls : List Int) (c : CNF) (a : Assg)
    (hsub : c.flatten ⊆ snap.flatten) :
    ∀ cl ∈ (pleAux snap ls (c, a)).1, cl ∈ c := by
  induction ls generalizing c a with
  | nil => exact fun cl hcl => hcl
  | cons l rest ih =>
    simp only [pleAux]
    by_cases h : (0 < countLit snap l && countLit snap (-l) == 0) = true
    · rw [if_pos h]
      intro cl hcl
      have hpure : -l ∉ c.flatten := fun hmem =>
        ((countLit_eq_zero_iff snap (-l)).mp (pleAux_trigger_parts h).2) (hsub hmem)
      have hsub' : (assign c (abs l) (decide (0 < l))).flatten ⊆ snap.flatten :=
        fun x hx => hsub (flatten_assign_subset _ _ _ hx)
      exact pure_assign_mem hpure _ (ih _ _ hsub' cl hcl)
    · rw [if_neg h]
      exact ih _ _ hsub

theorem flatten_pleAux_subset (snap : CNF) (ls : List Int) (c : CNF) (a : Assg) :
    (pleAux snap ls (c, a)).1.flatten ⊆ c.flatten := by
  induction ls generalizing c a with
  | nil => exact fun l hl => hl
  | cons l rest ih =>
    simp only [pleAux]
    by_cases h : (0 < countLit snap l && countLit snap (-l) == 0) = true
    · rw [if_pos h]
      exact fun x hx => flatten_assign_subset _ _ _ (ih _ _ hx)
    · rw [if_neg h]
      exact ih _ _

theorem pleAux_lookup_frame (snap : CNF) (ls : List Int) (c : CNF) (a : Assg)
    (k : Int) (hk : ∀ l ∈ ls, k ≠ abs l) :
    lookupA (pleAux snap ls (c, a)).2 k = lookupA a k := by
  induction ls generalizing c a with
  | nil => rfl
  | cons l rest ih =>
    simp only [pleAux]
    by_cases h : (0 < countLit snap l && countLit snap (-l) == 0) = true
    · rw [if_pos h, ih _ _ (fun l' hl' => hk l' (List.mem_cons_of_mem _ hl'))]
      exact lookupA_setA_ne _ _ _ _ (hk l (List.mem_cons_self ..))
    · rw [if_neg h]
      exact ih _ _ (fun l' hl' => hk l' (List.mem_cons_of_mem _ hl'))

theorem pleAux_lookup_stable (snap : CNF) (ls : List Int) (c : CNF) (a : Assg)
    (v : Int) (b : Bool) (hv : lookupA a v = some b)
    (hcond : ∀ l ∈ ls, (0 < countLit snap l && countLit snap (-l) == 0) = true →
      abs l = v → decide (0 < l) = b) :
    lookupA (pleAux snap ls (c, a)).2 v = some b := by
  induction ls generalizing c a with
  | nil => exact hv
  | cons l rest ih =>
    simp only [pleAux]
    by_cases h : (0 < countLit snap l && countLit snap (-l) == 0) = true
    · rw [if_pos h]
      apply ih
      · by_cases hlv : abs l = v
        · rw [← hlv, lookupA_setA_self,
            hcond l (List.mem_cons_self ..) h hlv]
        · rw [lookupA_setA_ne _ _ _ _ (Ne.symm hlv)]
          exact hv
      · exact fun l' hl' => hcond l' (List.mem_cons_of_mem _ hl')
    · rw [if_neg h]
      exact ih _ _ hv (fun l' hl' => hcond l' (List.mem_cons_of_mem _ hl'))

theorem pleAux_sound (snap : CNF) (ls : List Int) (c : CNF) (a : Assg) (M : Assg)
    (hagree : ∀ k, k ∉ cnfVars (pleAux snap ls (c, a)).1 →
      lookupA M k = lookupA (pleAux snap ls (c, a)).2 k)
    (hsat : cnfSat M (pleAux snap ls (c, a)).1) : cnfSat M c := by
  induction ls generalizing c a with
  | nil => exact hsat
  | cons l rest ih =>
    by_cases h : (0 < countLit snap l && countLit snap (-l) == 0) = true
    · have heq : pleAux snap (l :: rest) (c, a) =
        pleAux snap rest (assign c (abs l) (decide (0 < l)),
          setA a (abs l) (decide (0 < l))) := by
        simp only [pleAux]
        rw [if_pos h]
      rw [heq] at hagree hsat
      have hsat' := ih _ _ hagree hsat
      have hparts := pleAux_trigger_parts h
      have hl0 : l ≠ 0 := by
        intro h0
        subst h0
        rw [neg_zero] at hparts
        omega
      have hnota : abs l ∉ cnfVars (assign c (abs l) (decide (0 < l))) := by
        have := abs_notMem_cnfVars_assign c (abs l) (decide (0 < l))
        rwa [abs_abs] at this
      have hnotres : abs l ∉ cnfVars (pleAux snap rest
          (assign c (abs l) (decide (0 < l)),
            setA a (abs l) (decide (0 < l)))).1 := fun hmem =>
        hnota (cnfVars_mono (flatten_pleAux_subset _ _ _ _) hmem)
      apply cnfSat_assign (abs_pos_of_ne_zero hl0) ?_ hsat'
      rw [hagree _ hnotres]
      apply pleAux_lookup_stable
      · exact lookupA_setA_self _ _ _
      · intro l' hl' htrig habs
        rcases (abs_eq_abs_iff l' l).mp habs with rfl | rfl
        · rfl
        · have hparts' := pleAux_trigger_parts htrig
          rw [neg_neg] at hparts'
          omega
    · have heq : pleAux snap (l :: rest) (c, a) = pleAux snap rest (c, a) := by
        simp only [pleAux]
        rw [if_neg h]
      rw [heq] at hagree hsat
      exact ih _ _ hagree hsat

/-! ### Wrapper lemmas for `UnitPropagation` and `PureLiteralElimination` -/

theorem UP_ok_iff (cnf : CNF) (a : Assg) :
    (UnitPropagation cnf a).2.2 = true ↔ ∀ c ∈ (UnitPropagation cnf a).1, c ≠ [] := by
  simp only [UnitPropagation, Bool.not_eq_true', List.any_eq_false, Bool.not_eq_true,
    List.isEmpty_iff]

theorem UP_no_unit (cnf : CNF) (a : Assg) :
    ∀ c ∈ (UnitPropagation cnf a).1, c.length ≠ 1 :=
  findUnit_none (upLoopF_no_unit _ cnf a (Nat.lt_succ_self _))

theorem UP_fst_indep (cnf : CNF) (a a' : Assg) :
    (UnitPropagation cnf a).1 = (UnitPropagation cnf a').1 :=
  upLoopF_fst_indep _ cnf a a'

theorem UP_ok_indep (cnf : CNF) (a a' : Assg) :
    (UnitPropagation cnf a).2.2 = (UnitPropagation cnf a').2.2 := by
  simp only [UnitPropagation]
  rw [upLoopF_fst_indep _ cnf a a']

theorem UP_flatten_subset (cnf : CNF) (a : Assg) :
    (UnitPropagation cnf a).1.flatten ⊆ cnf.flatten :=
  flatten_upLoopF_subset _ cnf a

theorem UP_frame (cnf : CNF) (a : Assg) (k : Int) (hk : k ∉ cnfVars cnf) :
    lookupA (UnitPropagation cnf a).2.1 k = lookupA a k :=
  upLoopF_lookup_frame _ cnf a k hk

theorem UP_sound (cnf : CNF) (a : Assg) (M : Assg) (hz : noZero cnf)
    (hagree : ∀ k, k ∉ cnfVars (UnitPropagation cnf a).1 →
      lookupA M k = lookupA (UnitPropagation cnf a).2.1 k)
    (hsat : cnfSat M (UnitPropagation cnf a).1) : cnfSat M cnf :=
  upLoopF_sound _ cnf a M hz hagree hsat

theorem PLE_fst_indep (cnf : CNF) (a a' : Assg) :
    (PureLiteralElimination cnf a).1 = (PureLiteralElimination cnf a').1 :=
  pleAux_fst_indep cnf (litsList cnf) cnf a a'

theorem PLE_clauses_subset (cnf : CNF) (a : Assg) :
    ∀ cl ∈ (PureLiteralElimination cnf a).1, cl ∈ cnf :=
  pleAux_clauses_subset cnf (litsList cnf) cnf a (fun _ hx => hx)

theorem PLE_flatten_subset (cnf : CNF) (a : Assg) :
    (PureLiteralElimination cnf a).1.flatten ⊆ cnf.flatten :=
  flatten_pleAux_subset cnf (litsList cnf) cnf a

theorem PLE_frame (cnf : CNF) (a : Assg) (k : Int) (hk : k ∉ cnfVars cnf) :
    lookupA (PureLiteralElimination cnf a).2 k = lookupA a k := by
  apply pleAux_lookup_frame
  intro l hl hkl
  subst hkl
  exact hk (abs_mem_cnfVars (mem_dedupF hl))

theorem PLE_sound (cnf : CNF) (a : Assg) (M : Assg)
    (hagree : ∀ k, k ∉ cnfVars (PureLiteralElimination cnf a).1 →
      lookupA M k = lookupA (PureLiteralElimination cnf a).2 k)
    (hsat : cnfSat M (PureLiteralElimination cnf a).1) : cnfSat M cnf :=
  pleAux_sound cnf (litsList cnf) cnf a M hagree hsat

/-! ### The branch variable -/

theorem branchVar_abs (cnf : CNF) : abs (branchVar cnf) = branchVar cnf := by
  induction cnf with
  | nil => simp [branchVar, abs]
  | cons c rest ih =>
    match c with
    | [] => simpa [branchVar] using ih
    | l :: ls => simp [branchVar, abs_abs]

theorem branchVar_mem {cnf : CNF} (hne : ∀ c ∈ cnf, c ≠ []) (h : cnf ≠ []) :
    branchVar cnf ∈ cnfVars cnf := by
  match cnf with
  | [] => exact absurd rfl h
  | c :: rest =>
    match c, hne c (List.mem_cons_self ..) with
    | l :: ls, _ =>
      show abs l ∈ cnfVars ((l :: ls) :: rest)
      exact abs_mem_cnfVars (List.mem_flatten.mpr ⟨l :: ls, List.mem_cons_self .., by simp⟩)

theorem branchVar_pos {cnf : CNF} (hz : noZero cnf) (hne : ∀ c ∈ cnf, c ≠ [])
    (h : cnf ≠ []) : 0 < branchVar cnf := by
  match cnf with
  | [] => exact absurd rfl h
  | c :: rest =>
    match c, hne c (List.mem_cons_self ..) with
    | l :: ls, _ =>
      show 0 < abs l
      exact abs_pos_of_ne_zero (hz _ (List.mem_cons_self ..) l (List.mem_cons_self ..))

/-! ### Fuel sufficiency and monotonicity of `DPLLf` -/

theorem branch_varCount_lt {cnf : CNF} {a : Assg} {cnf1 cnf2 : CNF} {a1 a2 : Assg}
    (hUP : UnitPropagation cnf a = (cnf1, a1, true))
    (hPLE : PureLiteralElimination cnf1 a1 = (cnf2, a2))
    (hemp : cnf2 ≠ []) (value : Bool) :
    varCount (assign cnf2 (branchVar cnf2) value) < varCount cnf2 ∧
      varCount cnf2 ≤ varCount cnf ∧ (∀ c ∈ cnf2, c ≠ []) := by
  have hok : (UnitPropagation cnf a).2.2 = true := by rw [hUP]
  have hfst : (UnitPropagation cnf a).1 = cnf1 := by rw [hUP]
  have hcnf1ne : ∀ c ∈ cnf1, c ≠ [] := by
    have := (UP_ok_iff cnf a).mp hok
    rwa [hfst] at this
  have hsub21 : ∀ cl ∈ cnf2, cl ∈ cnf1 := by
    have := PLE_clauses_subset cnf1 a1
    rwa [hPLE] at this
  have hcnf2ne : ∀ c ∈ cnf2, c ≠ [] := fun c hc => hcnf1ne c (hsub21 c hc)
  have hv : abs (branchVar cnf2) ∈ cnfVars cnf2 := by
    rw [branchVar_abs]
    exact branchVar_mem hcnf2ne hemp
  have hvars21 : cnfVars cnf2 ⊆ cnfVars cnf1 := by
    have := PLE_flatten_subset cnf1 a1
    rw [hPLE] at this
    exact cnfVars_mono this
  have hvars1 : cnfVars cnf1 ⊆ cnfVars cnf := by
    have := UP_flatten_subset cnf a
    rw [hfst] at this
    exact cnfVars_mono this
  refine ⟨varCount_assign_lt value hv, ?_, hcnf2ne⟩
  exact Finset.card_le_card (fun x hx => hvars1 (hvars21 hx))

theorem DPLLf_isSome : ∀ (n : Nat) (cnf : CNF) (a : Assg), varCount cnf < n →
    (DPLLf n cnf a).isSome = true := by
  intro n
  induction n with
  | zero => intro cnf a h; omega
  | succ fuel ih =>
    intro cnf a h
    rcases hUP : UnitPropagation cnf a with ⟨cnf1, a1, ok⟩
    cases ok
    · simp [DPLLf, hUP]
    · rcases hPLE : PureLiteralElimination cnf1 a1 with ⟨cnf2, a2⟩
      by_cases hemp : cnf2 = []
      · simp [DPLLf, hUP, hPLE, hemp]
      · obtain ⟨hlt, hle, -⟩ := branch_varCount_lt hUP hPLE hemp true
        obtain ⟨hltf, -, -⟩ := branch_varCount_lt hUP hPLE hemp false
        simp only [DPLLf, hUP, hPLE]
        rw [if_neg hemp]
        obtain ⟨r1, hr1⟩ := Option.isSome_iff_exists.mp
          (ih (assign cnf2 (branchVar cnf2) true) (setA a2 (branchVar cnf2) true)
            (by omega))
        rw [hr1]
        rcases r1 with ⟨b, m⟩
        cases b
        · exact ih _ _ (by omega)
        · rfl

theorem DPLLf_mono : ∀ (n m : Nat) (cnf : CNF) (a : Assg) (r : Bool × Assg),
    DPLLf n cnf a = some r → n ≤ m → DPLLf m cnf a = some r := by
  intro n
  induction n with
  | zero => intro m cnf a r h; simp [DPLLf] at h
  | succ fuel ih =>
    intro m cnf a r h hle
    match m, hle with
    | mf + 1, _ =>
      rcases hUP : UnitPropagation cnf a with ⟨cnf1, a1, ok⟩
      cases ok
      · simpa [DPLLf, hUP] using (by simpa [DPLLf, hUP] using h)
      · rcases hPLE : PureLiteralElimination cnf1 a1 with ⟨cnf2, a2⟩
        by_cases hemp : cnf2 = []
        · simp only [DPLLf, hUP, hPLE] at h ⊢
          rw [if_pos hemp] at h ⊢
          exact h
        · simp only [DPLLf, hUP, hPLE] at h ⊢
          rw [if_neg hemp] at h ⊢
          rcases hr1 : DPLLf fuel (assign cnf2 (branchVar cnf2) true)
              (setA a2 (branchVar cnf2) true) with _ | ⟨b, m1⟩
          · rw [hr1] at h
            simp at h
          · rw [hr1] at h
            rw [ih _ _ _ _ hr1 (by omega)]
            cases b
            · exact ih _ _ _ _ h (by omega)
            · exact h

/-! ### Frame, verdict-independence and soundness of the recursive search -/

theorem DPLLf_frame : ∀ (n : Nat) (cnf : CNF) (a : Assg) (r : Bool × Assg),
    DPLLf n cnf a = some r → ∀ k, k ∉ cnfVars cnf → lookupA r.2 k = lookupA a k := by
  intro n
  induction n with
  | zero => intro cnf a r h; simp [DPLLf] at h
  | succ fuel ih =>
    intro cnf a r h k hk
    rcases hUP : UnitPropagation cnf a with ⟨cnf1, a1, ok⟩
    have hfst : (UnitPropagation cnf a).1 = cnf1 := by rw [hUP]
    have hsnd : (UnitPropagation cnf a).2.1 = a1 := by rw [hUP]
    have hk1 : k ∉ cnfVars cnf1 := fun hmem => hk (by
      have hs := UP_flatten_subset cnf a
      rw [hfst] at hs
      exact cnfVars_mono hs hmem)
    have hfr1 : lookupA a1 k = lookupA a k := by
      have := UP_frame cnf a k hk
      rwa [hsnd] at this
    cases ok
    · simp only [DPLLf, hUP, Option.some.injEq] at h
      subst h
      exact hfr1
    · rcases hPLE : PureLiteralElimination cnf1 a1 with ⟨cnf2, a2⟩
      have hPfst : (PureLiteralElimination cnf1 a1).1 = cnf2 := by rw [hPLE]
      have hPsnd : (PureLiteralElimination cnf1 a1).2 = a2 := by rw [hPLE]
      have hk2 : k ∉ cnfVars cnf2 := fun hmem => hk1 (by
        have hs := PLE_flatten_subset cnf1 a1
        rw [hPLE] at hs
        exact cnfVars_mono hs hmem)
      have hfr2 : lookupA a2 k = lookupA a1 k := by
        have := PLE_frame cnf1 a1 k hk1
        rwa [hPsnd] at this
      by_cases hemp : cnf2 = []
      · simp only [DPLLf, hUP, hPLE] at h
        rw [if_pos hemp] at h
        rw [Option.some.injEq] at h
        subst h
        rw [hfr2, hfr1]
      · obtain ⟨-, -, hcnf2ne⟩ := branch_varCount_lt hUP hPLE hemp true
        have hkv : k ≠ branchVar cnf2 := by
          intro hkv
          subst hkv
          exact hk2 (branchVar_mem hcnf2ne hemp)
        have hknot : ∀ value : Bool,
            k ∉ cnfVars (assign cnf2 (branchVar cnf2) value) := fun value hmem =>
          hk2 (cnfVars_mono (flatten_assign_subset _ _ _) hmem)
        simp only [DPLLf, hUP, hPLE] at h
        rw [if_neg hemp] at h
        rcases hr1 : DPLLf fuel (assign cnf2 (branchVar cnf2) true)
            (setA a2 (branchVar cnf2) true) with _ | ⟨b, m1⟩
        · rw [hr1] at h
          simp at h
        · rw [hr1] at h
          have h1 : lookupA m1 k = lookupA a2 k := by
            have := ih _ _ _ hr1 k (hknot true)
            rwa [lookupA_setA_ne _ _ _ _ hkv] at this
          cases b
          · have h2 := ih _ _ _ h k (hknot false)
            rw [lookupA_setA_ne _ _ _ _ hkv] at h2
            rw [h2, h1, hfr2, hfr1]
          · rw [Option.some.injEq] at h
            subst h
            rw [h1, hfr2, hfr1]

theorem DPLLf_fst_indep : ∀ (n : Nat) (cnf : CNF) (a a' : Assg),
    Option.map Prod.fst (DPLLf n cnf a) = Option.map Prod.fst (DPLLf n cnf a') := by
  intro n
  induction n with
  | zero => intros; rfl
  | succ fuel ih =>
    intro cnf a a'
    rcases hUP : UnitPropagation cnf a with ⟨cnf1, a1, ok⟩
    rcases hUP' : UnitPropagation cnf a' with ⟨cnf1', a1', ok'⟩
    have hfsteq : cnf1 = cnf1' := by
      have := UP_fst_indep cnf a a'
      rwa [hUP, hUP'] at this
    have hokeq : ok = ok' := by
      have := UP_ok_indep cnf a a'
      rwa [hUP, hUP'] at this
    subst hfsteq
    subst hokeq
    cases ok
    · simp [DPLLf, hUP, hUP']
    · rcases hPLE : PureLiteralElimination cnf1 a1 with ⟨cnf2, a2⟩
      rcases hPLE' : PureLiteralElimination cnf1 a1' with ⟨cnf2', a2'⟩
      have hPfsteq : cnf2 = cnf2' := by
        have := PLE_fst_indep cnf1 a1 a1'
        rwa [hPLE, hPLE'] at this
      subst hPfsteq
      by_cases hemp : cnf2 = []
      · simp [DPLLf, hUP, hUP', hPLE, hPLE', hemp]
      · simp only [DPLLf, hUP, hUP', hPLE, hPLE']
        rw [if_neg hemp, if_neg hemp]
        have h1 := ih (assign cnf2 (branchVar cnf2) true)
          (setA a2 (branchVar cnf2) true) (setA a2' (branchVar cnf2) true)
        rcases hr1 : DPLLf fuel (assign cnf2 (branchVar cnf2) true)
            (setA a2 (branchVar cnf2) true) with _ | ⟨b, m1⟩ <;>
          rcases hr1' : DPLLf fuel (assign cnf2 (branchVar cnf2) true)
            (setA a2' (branchVar cnf2) true) with _ | ⟨b', m1'⟩
        · rfl
        · rw [hr1, hr1'] at h1
          simp at h1
        · rw [hr1, hr1'] at h1
          simp at h1
        · rw [hr1, hr1'] at h1
          have hb : b = b' := by simpa using h1
          subst hb
          cases b
          · exact ih _ _ _
          · rfl

theorem DPLLf_sound : ∀ (n : Nat) (cnf : CNF) (a M : Assg), noZero cnf →
    DPLLf n cnf a = some (true, M) → cnfSat M cnf := by
  intro n
  induction n with
  | zero => intro cnf a M hz h; simp [DPLLf] at h
  | succ fuel ih =>
    intro cnf a M hz h
    rcases hUP : UnitPropagation cnf a with ⟨cnf1, a1, ok⟩
    have hfst : (UnitPropagation cnf a).1 = cnf1 := by rw [hUP]
    have hsnd : (UnitPropagation cnf a).2.1 = a1 := by rw [hUP]
    have hz1 : noZero cnf1 := by
      have hs := UP_flatten_subset cnf a
      rw [hfst] at hs
      exact noZero_mono hs hz
    cases ok
    · simp [DPLLf, hUP] at h
    · rcases hPLE : PureLiteralElimination cnf1 a1 with ⟨cnf2, a2⟩
      have hPfst : (PureLiteralElimination cnf1 a1).1 = cnf2 := by rw [hPLE]
      have hPsnd : (PureLiteralElimination cnf1 a1).2 = a2 := by rw [hPLE]
      have hz2 : noZero cnf2 := by
        have hs := PLE_flatten_subset cnf1 a1
        rw [hPLE] at hs
        exact noZero_mono hs hz1
      have step : (∀ k, k ∉ cnfVars cnf2 → lookupA M k = lookupA a2 k) →
          cnfSat M cnf2 → cnfSat M cnf := by
        intro hagree2 hsat2
        have hsat1 : cnfSat M cnf1 := by
          apply PLE_sound cnf1 a1 M
          · intro k hkk
            rw [hPfst] at hkk
            rw [hPsnd]
            exact hagree2 k hkk
          · rw [hPfst]
            exact hsat2
        apply UP_sound cnf a M hz
        · intro k hkk
          rw [hfst] at hkk
          rw [hsnd]
          have hk2 : k ∉ cnfVars cnf2 := fun hmem => hkk (by
            have hs := PLE_flatten_subset cnf1 a1
            rw [hPLE] at hs
            exact cnfVars_mono hs hmem)
          rw [hagree2 k hk2]
          have := PLE_frame cnf1 a1 k hkk
          rwa [hPsnd] at this
        · rw [hfst]
          exact hsat1
      by_cases hemp : cnf2 = []
      · simp only [DPLLf, hUP, hPLE] at h
        rw [if_pos hemp] at h
        rw [Option.some.injEq, Prod.mk.injEq] at h
        obtain ⟨-, rfl⟩ := h
        apply step (fun k _ => rfl)
        rw [hemp]
        intro c hc
        simp at hc
      · obtain ⟨-, -, hcnf2ne⟩ := branch_varCount_lt hUP hPLE hemp true
        have hvmem : branchVar cnf2 ∈ cnfVars cnf2 := branchVar_mem hcnf2ne hemp
        have hvpos : 0 < branchVar cnf2 := branchVar_pos hz2 hcnf2ne hemp
        have hnotv : ∀ value : Bool,
            branchVar cnf2 ∉ cnfVars (assign cnf2 (branchVar cnf2) value) := by
          intro value
          have := abs_notMem_cnfVars_assign cnf2 (branchVar cnf2) value
          rwa [branchVar_abs] at this
        have hzc : ∀ value : Bool, noZero (assign cnf2 (branchVar cnf2) value) :=
          fun value => noZero_mono (flatten_assign_subset _ _ _) hz2
        simp only [DPLLf, hUP, hPLE] at h
        rw [if_neg hemp] at h
        rcases hr1 : DPLLf fuel (assign cnf2 (branchVar cnf2) true)
            (setA a2 (branchVar cnf2) true) with _ | ⟨b, m1⟩
        · rw [hr1] at h
          simp at h
        · rw [hr1] at h
          cases b
          · -- the true branch failed; the false branch produced M
            have hsatc := ih _ _ _ (hzc false) h
            have hlook : lookupA M (branchVar cnf2) = some false := by
              have := DPLLf_frame fuel _ _ _ h (branchVar cnf2) (hnotv false)
              rwa [lookupA_setA_self] at this
            have hsat2 : cnfSat M cnf2 := cnfSat_assign hvpos hlook hsatc
            apply step ?_ hsat2
            intro k hk2
            have hkv : k ≠ branchVar cnf2 := fun hkv => by
              subst hkv
              exact hk2 hvmem
            have hknot : ∀ value : Bool,
                k ∉ cnfVars (assign cnf2 (branchVar cnf2) value) := fun value hmem =>
              hk2 (cnfVars_mono (flatten_assign_subset _ _ _) hmem)
            have h2 := DPLLf_frame fuel _ _ _ h k (hknot false)
            rw [lookupA_setA_ne _ _ _ _ hkv] at h2
            have h1 := DPLLf_frame fuel _ _ _ hr1 k (hknot true)
            rw [lookupA_setA_ne _ _ _ _ hkv] at h1
            rw [h2, h1]
          · -- the true branch succeeded with M
            rw [Option.some.injEq, Prod.mk.injEq] at h
            obtain ⟨-, rfl⟩ := h
            have hsatc := ih _ _ _ (hzc true) hr1
            have hlook : lookupA m1 (branchVar cnf2) = some true := by
              have := DPLLf_frame fuel _ _ _ hr1 (branchVar cnf2) (hnotv true)
              rwa [lookupA_setA_self] at this
            have hsat2 : cnfSat m1 cnf2 := cnfSat_assign hvpos hlook hsatc
            apply step ?_ hsat2
            intro k hk2
            have hkv : k ≠ branchVar cnf2 := fun hkv => by
              subst hkv
              exact hk2 hvmem
            have h1 := DPLLf_frame fuel _ _ _ hr1 k
              (fun hmem => hk2 (cnfVars_mono (flatten_assign_subset _ _ _) hmem))
            rwa [lookupA_setA_ne _ _ _ _ hkv] at h1

/-! ### Completeness: brute-force satisfiability survives every search step -/

theorem evalLit_unit {τ : Int → Bool} {u : Int} (h : evalLit τ u = true) :
    τ (abs u) = decide (0 < u) := by
  by_cases hu : 0 < u
  · rw [evalLit, if_pos hu] at h
    have : abs u = u := by simp only [abs]; omega
    rw [this, h, decide_eq_true hu]
  · rw [evalLit, if_neg hu, Bool.not_eq_true'] at h
    have : abs u = -u := by simp only [abs]; omega
    rw [this, h]
    simp [hu]

theorem sat_assign_of_eval {τ : Int → Bool} {cnf : CNF} {v : Int} {value : Bool}
    (hv : 0 < v) (hτ : τ v = value) (h : evalCNF τ cnf = true) :
    evalCNF τ (assign cnf v value) = true := by
  rw [evalCNF, List.all_eq_true]
  intro c' hc'
  rw [mem_assign_iff] at hc'
  obtain ⟨c, hc, hskip, rfl⟩ := hc'
  have hcsat : evalClause τ c = true := List.all_eq_true.mp h c hc
  rw [evalClause, List.any_eq_true] at hcsat
  obtain ⟨l, hl, hlt⟩ := hcsat
  rw [evalClause, List.any_eq_true]
  refine ⟨l, List.mem_filter.mpr ⟨hl, ?_⟩, hlt⟩
  have hsk := hskip l hl
  simp only [litSkip, Bool.or_eq_false_iff, Bool.and_eq_false_iff, beq_eq_false_iff_ne,
    ne_eq, Bool.not_eq_false] at hsk
  simp only [bne_iff_ne, ne_eq, Bool.and_eq_true, decide_eq_true_eq]
  constructor
  · intro hlv
    subst hlv
    rw [evalLit, if_pos hv, hτ] at hlt
    rcases hsk.1 with h1 | h1
    · exact h1 rfl
    · rw [h1] at hlt
      exact Bool.false_ne_true hlt
  · intro hlv
    subst hlv
    rw [evalLit, if_neg (by omega), neg_neg, hτ, Bool.not_eq_true'] at hlt
    rcases hsk.2 with h1 | h1
    · exact h1 rfl
    · rw [hlt] at h1
      simp at h1

theorem evalCNF_upLoopF {τ : Int → Bool} (n : Nat) (cnf : CNF) (a : Assg)
    (hz : noZero cnf) (h : evalCNF τ cnf = true) :
    evalCNF τ (upLoopF n cnf a).1 = true := by
  induction n generalizing cnf a with
  | zero => exact h
  | succ m ih =>
    rcases hu : findUnit cnf with _ | u
    · have heq : upLoopF (m + 1) cnf a = (cnf, a) := by simp [upLoopF, hu]
      rw [heq]
      exact h
    · have heq : upLoopF (m + 1) cnf a =
        upLoopF m (assign cnf (abs u) (decide (0 < u)))
          (setA a (abs u) (decide (0 < u))) := by simp [upLoopF, hu]
      rw [heq]
      have hmem := findUnit_mem hu
      have hu0 : u ≠ 0 := hz _ hmem u (by simp)
      have hus : evalClause τ [u] = true := List.all_eq_true.mp h _ hmem
      rw [evalClause] at hus
      simp only [List.any_cons, List.any_nil, Bool.or_false] at hus
      exact ih _ _ (noZero_mono (flatten_assign_subset _ _ _) hz)
        (sat_assign_of_eval (abs_pos_of_ne_zero hu0) (evalLit_unit hus) h)

/-- Pointwise update of a total valuation. -/
def updτ (τ : Int → Bool) (k : Int) (b : Bool) : Int → Bool :=
  fun x => if x = k then b else τ x

theorem evalLit_updτ_ne {τ : Int → Bool} {k : Int} {b : Bool} {x : Int}
    (h1 : x ≠ k) (h2 : x ≠ -k) : evalLit (updτ τ k b) x = evalLit τ x := by
  rw [evalLit, evalLit]
  by_cases hx : 0 < x
  · rw [if_pos hx, if_pos hx, updτ, if_neg h1]
  · rw [if_neg hx, if_neg hx, updτ, if_neg (by omega)]

theorem pleAux_complete (snap : CNF) (ls : List Int) (c : CNF) (a : Assg)
    (hsub : c.flatten ⊆ snap.flatten) (h : ∃ τ, evalCNF τ c = true) :
    ∃ τ', evalCNF τ' (pleAux snap ls (c, a)).1 = true := by
  induction ls generalizing c a with
  | nil => exact h
  | cons l rest ih =>
    by_cases htr : (0 < countLit snap l && countLit snap (-l) == 0) = true
    · have heq : pleAux snap (l :: rest) (c, a) =
        pleAux snap rest (assign c (abs l) (decide (0 < l)),
          setA a (abs l) (decide (0 < l))) := by
        simp only [pleAux]
        rw [if_pos htr]
      rw [heq]
      obtain ⟨τ, hτ⟩ := h
      have hpure : -l ∉ c.flatten := fun hmem =>
        ((countLit_eq_zero_iff snap (-l)).mp (pleAux_trigger_parts htr).2) (hsub hmem)
      refine ih _ _ (fun x hx => hsub (flatten_assign_subset _ _ _ hx))
        ⟨updτ τ (abs l) (decide (0 < l)), ?_⟩
      rw [evalCNF, List.all_eq_true]
      intro cl hcl
      have hclmem : cl ∈ c := pure_assign_mem hpure cl hcl
      have hclsat : evalClause τ cl = true := List.all_eq_true.mp hτ cl hclmem
      rw [evalClause, List.any_eq_true] at hclsat
      obtain ⟨x, hx, hxt⟩ := hclsat
      have hxvar : x ≠ abs l ∧ x ≠ -abs l := by
        have := mem_flatten_assign (List.mem_flatten.mpr ⟨cl, hcl, hx⟩)
        exact this.2
      rw [evalClause, List.any_eq_true]
      exact ⟨x, hx, by rw [evalLit_updτ_ne hxvar.1 hxvar.2]; exact hxt⟩
    · have heq : pleAux snap (l :: rest) (c, a) = pleAux snap rest (c, a) := by
        simp only [pleAux]
        rw [if_neg htr]
      rw [heq]
      exact ih _ _ hsub h

theorem DPLLf_complete : ∀ (n : Nat) (cnf : CNF) (a : Assg), varCount cnf < n →
    noZero cnf → (∃ τ, evalCNF τ cnf = true) →
    ∃ M, DPLLf n cnf a = some (true, M) := by
  intro n
  induction n with
  | zero => intro cnf a h; omega
  | succ fuel ih =>
    intro cnf a hfuel hz hτ
    rcases hUP : UnitPropagation cnf a with ⟨cnf1, a1, ok⟩
    have hfst : (UnitPropagation cnf a).1 = cnf1 := by rw [hUP]
    obtain ⟨τ, hτ⟩ := hτ
    have hτ1 : evalCNF τ cnf1 = true := by
      have := @evalCNF_upLoopF τ (varCount cnf + 1) cnf a hz hτ
      rwa [show (upLoopF (varCount cnf + 1) cnf a).1 = cnf1 from hfst] at this
    have hz1 : noZero cnf1 := by
      have hs := UP_flatten_subset cnf a
      rw [hfst] at hs
      exact noZero_mono hs hz
    have hok : ok = true := by
      by_contra hok
      have hok' : (UnitPropagation cnf a).2.2 = false := by
        rw [hUP]
        simpa using hok
      have : ¬ ∀ c ∈ cnf1, c ≠ [] := by
        intro hne
        have := (UP_ok_iff cnf a).mpr (by rwa [hfst])
        rw [hok'] at this
        exact Bool.false_ne_true this
      push_neg at this
      obtain ⟨c, hc, rfl⟩ := this
      have := List.all_eq_true.mp hτ1 _ hc
      simp [evalClause] at this
    subst hok
    rcases hPLE : PureLiteralElimination cnf1 a1 with ⟨cnf2, a2⟩
    have hPfst : (PureLiteralElimination cnf1 a1).1 = cnf2 := by rw [hPLE]
    have hτ2 : ∃ τ₂, evalCNF τ₂ cnf2 = true := by
      have := pleAux_complete cnf1 (litsList cnf1) cnf1 a1
        (fun x hx => hx) ⟨τ, hτ1⟩
      rwa [show (pleAux cnf1 (litsList cnf1) (cnf1, a1)).1 = cnf2 from hPfst] at this
    have hz2 : noZero cnf2 := by
      have hs := PLE_flatten_subset cnf1 a1
      rw [hPLE] at hs
      exact noZero_mono hs hz1
    by_cases hemp : cnf2 = []
    · refine ⟨a2, ?_⟩
      simp only [DPLLf, hUP, hPLE]
      rw [if_pos hemp]
    · obtain ⟨hlt, hle, hcnf2ne⟩ := branch_varCount_lt hUP hPLE hemp true
      obtain ⟨hltf, -, -⟩ := branch_varCount_lt hUP hPLE hemp false
      have hvpos : 0 < branchVar cnf2 := branchVar_pos hz2 hcnf2ne hemp
      obtain ⟨τ₂, hτ₂⟩ := hτ2
      have hzc : ∀ value : Bool, noZero (assign cnf2 (branchVar cnf2) value) :=
        fun value => noZero_mono (flatten_assign_subset _ _ _) hz2
      rcases hτv : τ₂ (branchVar cnf2) with _ | _
      · -- τ₂ sets the branch variable false; the true branch may or may not fail
        rcases hr1 : DPLLf fuel (assign cnf2 (branchVar cnf2) true)
            (setA a2 (branchVar cnf2) true) with _ | ⟨b, m1⟩
        · exfalso
          have := DPLLf_isSome fuel (assign cnf2 (branchVar cnf2) true)
            (setA a2 (branchVar cnf2) true) (by omega)
          rw [hr1] at this
          simp at this
        · cases b
          · obtain ⟨M, hM⟩ := ih (assign cnf2 (branchVar cnf2) false)
              (setA m1 (branchVar cnf2) false) (by omega) (hzc false)
              ⟨τ₂, sat_assign_of_eval hvpos hτv hτ₂⟩
            refine ⟨M, ?_⟩
            simp only [DPLLf, hUP, hPLE]
            rw [if_neg hemp, hr1]
            exact hM
          · refine ⟨m1, ?_⟩
            simp only [DPLLf, hUP, hPLE]
            rw [if_neg hemp, hr1]
      · obtain ⟨M, hM⟩ := ih (assign cnf2 (branchVar cnf2) true)
          (setA a2 (branchVar cnf2) true) (by omega) (hzc true)
          ⟨τ₂, sat_assign_of_eval hvpos hτv hτ₂⟩
        refine ⟨M, ?_⟩
        simp only [DPLLf, hUP, hPLE]
        rw [if_neg hemp, hM]

/-! ### The search verdict and the iterative work-stack correspondence -/

/-- The satisfiability verdict of the recursive search started from the
empty assignment; by `DPLLf_fst_indep` this is the verdict from any start. -/
def dsat (cnf : CNF) : Bool := ((DPLL cnf []).getD (false, [])).1

theorem DPLLf_verdict (n : Nat) (cnf : CNF) (a : Assg) (h : varCount cnf < n) :
    ∃ m, DPLLf n cnf a = some (dsat cnf, m) := by
  obtain ⟨r0, hr0⟩ := Option.isSome_iff_exists.mp
    (DPLLf_isSome (varCount cnf + 1) cnf [] (Nat.lt_succ_self _))
  have hds : dsat cnf = r0.1 := by
    rw [dsat, DPLL, hr0]
    rfl
  obtain ⟨r, hr⟩ := Option.isSome_iff_exists.mp (DPLLf_isSome n cnf a h)
  have hmono := DPLLf_mono (varCount cnf + 1) n cnf [] r0 hr0 (by omega)
  have hind := DPLLf_fst_indep n cnf a []
  rw [hr, hmono] at hind
  have hfst : r.1 = r0.1 := by simpa using hind
  exact ⟨r.2, by rw [hr, hds, ← hfst]⟩

theorem dsat_conflict {cnf : CNF} {a : Assg} {cnf1 : CNF} {a1 : Assg}
    (hUP : UnitPropagation cnf a = (cnf1, a1, false)) : dsat cnf = false := by
  have hok : (UnitPropagation cnf []).2.2 = false := by
    have := UP_ok_indep cnf [] a
    rw [hUP] at this
    exact this
  rcases hUP0 : UnitPropagation cnf [] with ⟨c1, b1, ok0⟩
  have hok0 : ok0 = false := by
    rw [hUP0] at hok
    exact hok
  subst hok0
  rw [dsat, DPLL]
  simp [DPLLf, hUP0]

theorem dsat_empty {cnf : CNF} {a : Assg} {cnf1 : CNF} {a1 : Assg}
    (hUP : UnitPropagation cnf a = (cnf1, a1, true))
    (hPLE : (PureLiteralElimination cnf1 a1).1 = []) : dsat cnf = true := by
  rcases hUP0 : UnitPropagation cnf [] with ⟨c1, b1, ok0⟩
  have hc1 : cnf1 = c1 := by
    have := UP_fst_indep cnf [] a
    rw [hUP, hUP0] at this
    exact this.symm
  have hok0 : ok0 = true := by
    have := UP_ok_indep cnf [] a
    rw [hUP, hUP0] at this
    exact this
  subst hc1
  subst hok0
  rcases hPLE0 : PureLiteralElimination cnf1 b1 with ⟨cnf2', b2⟩
  have hc2 : cnf2' = [] := by
    have := PLE_fst_indep cnf1 b1 a1
    rw [hPLE0, hPLE] at this
    exact this
  subst hc2
  rw [dsat, DPLL]
  simp [DPLLf, hUP0, hPLE0]

theorem dsat_branch {cnf : CNF} {a : Assg} {cnf1 : CNF} {a1 : Assg}
    {cnf2 : CNF} {a2 : Assg}
    (hUP : UnitPropagation cnf a = (cnf1, a1, true))
    (hPLE : PureLiteralElimination cnf1 a1 = (cnf2, a2)) (hemp : cnf2 ≠ []) :
    dsat cnf = (dsat (assign cnf2 (branchVar cnf2) true) ||
      dsat (assign cnf2 (branchVar cnf2) false)) := by
  rcases hUP0 : UnitPropagation cnf [] with ⟨c1, b1, ok0⟩
  have hc1 : cnf1 = c1 := by
    have := UP_fst_indep cnf [] a
    rw [hUP, hUP0] at this
    exact this.symm
  have hok0 : ok0 = true := by
    have := UP_ok_indep cnf [] a
    rw [hUP, hUP0] at this
    exact this
  subst hc1
  subst hok0
  rcases hPLE0 : PureLiteralElimination cnf1 b1 with ⟨cnf2', b2⟩
  have hc2 : cnf2 = cnf2' := by
    have := PLE_fst_indep cnf1 b1 a1
    rw [hPLE0, hPLE] at this
    exact this.symm
  subst hc2
  obtain ⟨hlt, hle, -⟩ := branch_varCount_lt hUP0 hPLE0 hemp true
  obtain ⟨hltf, -, -⟩ := branch_varCount_lt hUP0 hPLE0 hemp false
  obtain ⟨m1, hm1⟩ := DPLLf_verdict (varCount cnf)
    (assign cnf2 (branchVar cnf2) true) (setA b2 (branchVar cnf2) true) (by omega)
  rcases hd1 : dsat (assign cnf2 (branchVar cnf2) true) with _ | _
  · obtain ⟨m2, hm2⟩ := DPLLf_verdict (varCount cnf)
      (assign cnf2 (branchVar cnf2) false) (setA m1 (branchVar cnf2) false) (by omega)
    rw [hd1] at hm1
    conv_lhs => rw [dsat, DPLL]
    simp only [DPLLf, hUP0, hPLE0]
    rw [if_neg hemp, hm1]
    show ((DPLLf (varCount cnf) (assign cnf2 (branchVar cnf2) false)
      (setA m1 (branchVar cnf2) false)).getD (false, [])).1 = _
    rw [hm2]
    simp
  · rw [hd1] at hm1
    conv_lhs => rw [dsat, DPLL]
    simp only [DPLLf, hUP0, hPLE0]
    rw [if_neg hemp, hm1]
    simp

theorem iterLoopF_run : ∀ (n : Nat) (stack : List (CNF × Assg)) (a0 : Assg),
    iterFuel stack < n →
    ∃ m, iterLoopF n stack a0 = some (stack.any (fun s => dsat s.1), m) := by
  intro n
  induction n with
  | zero => intro stack a0 h; omega
  | succ fuel ih =>
    intro stack a0 h
    match stack with
    | [] => exact ⟨a0, by simp [iterLoopF]⟩
    | (cnf, a) :: rest =>
      have hone : 1 ≤ 3 ^ varCount cnf := Nat.one_le_pow _ _ (by omega)
      have hfc : iterFuel ((cnf, a) :: rest) = 3 ^ varCount cnf + iterFuel rest := rfl
      rcases hUP : UnitPropagation cnf a with ⟨cnf1, a1, ok⟩
      cases ok
      · have hds : dsat cnf = false := dsat_conflict hUP
        obtain ⟨m, hm⟩ := ih rest a0 (by rw [hfc] at h; omega)
        refine ⟨m, ?_⟩
        simp only [iterLoopF, hUP]
        rw [hm]
        simp [hds]
      · rcases hPLE : PureLiteralElimination cnf1 a1 with ⟨cnf2, a2⟩
        by_cases hemp : cnf2 = []
        · have hds : dsat cnf = true :=
            dsat_empty hUP (by rw [hPLE, hemp])
          refine ⟨a2, ?_⟩
          simp only [iterLoopF, hUP, hPLE]
          rw [if_pos hemp]
          simp [hds]
        · have hds := dsat_branch hUP hPLE hemp
          obtain ⟨hlt, hle, -⟩ := branch_varCount_lt hUP hPLE hemp true
          obtain ⟨hltf, -, -⟩ := branch_varCount_lt hUP hPLE hemp false
          have hvc2 : 1 ≤ varCount cnf2 := by omega
          have hp1 : 3 ^ varCount (assign cnf2 (branchVar cnf2) true) ≤
              3 ^ (varCount cnf2 - 1) :=
            Nat.pow_le_pow_right (by omega) (by omega)
          have hp2 : 3 ^ varCount (assign cnf2 (branchVar cnf2) false) ≤
              3 ^ (varCount cnf2 - 1) :=
            Nat.pow_le_pow_right (by omega) (by omega)
          have hp4 : 1 ≤ 3 ^ (varCount cnf2 - 1) := Nat.one_le_pow _ _ (by omega)
          have hp3 : 2 * 3 ^ (varCount cnf2 - 1) < 3 ^ varCount cnf2 := by
            have heq2 : 3 ^ (varCount cnf2 - 1 + 1) = 3 ^ varCount cnf2 := by
              have heq3 : varCount cnf2 - 1 + 1 = varCount cnf2 := by omega
              rw [heq3]
            rw [← heq2, pow_succ]
            omega
          have hp5 : 3 ^ varCount cnf2 ≤ 3 ^ varCount cnf :=
            Nat.pow_le_pow_right (by omega) (by omega)
          have hstackf : iterFuel ((assign cnf2 (branchVar cnf2) true, copyAssignment a2)
              :: (assign cnf2 (branchVar cnf2) false, copyAssignment a2) :: rest) =
              3 ^ varCount (assign cnf2 (branchVar cnf2) true) +
                (3 ^ varCount (assign cnf2 (branchVar cnf2) false) + iterFuel rest) := rfl
          obtain ⟨m, hm⟩ := ih ((assign cnf2 (branchVar cnf2) true, copyAssignment a2)
              :: (assign cnf2 (branchVar cnf2) false, copyAssignment a2) :: rest) a0
            (by rw [hstackf]; rw [hfc] at h; omega)
          refine ⟨m, ?_⟩
          simp only [iterLoopF, hUP, hPLE]
          rw [if_neg hemp, hm]
          simp only [List.any_cons, copyAssignment, Option.some.injEq, Prod.mk.injEq]
          rw [hds]
          simp [Bool.or_assoc]

/-! ### The parser and substitution expander (parseCNF, satisfier.go:161-212)

The surface string is a list of characters.  Go's `strings.Split` on the
two-character separators `/\` (AND) and `\/` (OR), `strings.Trim` with a
cutset, and `strings.HasPrefix` are modelled directly; neither separator
can overlap itself, so the left-to-right scan below is Go's split. -/

/-- Go `strings.Split` on a fixed two-character separator. -/
def split2 (a b : Char) : List Char → List (List Char)
  | [] => [[]]
  | [c] => [[c]]
  | c :: d :: rest =>
    if c == a && d == b then [] :: split2 a b rest
    else
      match split2 a b (d :: rest) with
      | [] => [[c]]
      | s :: ss => (c :: s) :: ss

/-- Go `strings.Trim`: remove characters of the cutset from both ends. -/
def trimCset (cut : List Char) (s : List Char) : List Char :=
  ((s.dropWhile (fun c => cut.contains c)).reverse.dropWhile
    (fun c => cut.contains c)).reverse

/-- Go `strings.HasPrefix(litStr, "!")`. -/
def hasPrefixBang : List Char → Bool
  | [] => false
  | c :: _ => c == '!'

/-- The part of the formula store `parseCNF` reads: name ↦ raw text
(`store.Formulas`, satisfier.go:19).  Names are stored as typed by the
user, without surrounding quotes. -/
abbrev Store := List (List Char × List Char)

/-- `store.Formulas[litStr]` lookup. -/
def lookupStore : Store → List Char → Option (List Char)
  | [], _ => none
  | (k, v) :: rest, x => if k = x then some v else lookupStore rest x

/-- `varMap[v]` lookup. -/
def lookupVM : List (List Char × Int) → List Char → Option Int
  | [], _ => none
  | (k, v) :: rest, x => if k = x then some v else lookupVM rest x

/-- parseCNF (satisfier.go:161-212).  The fuel bounds the depth of
stored-formula expansion only — the Go function recurses unboundedly on
cyclic references, which the model renders as `none` for every fuel.
The running state mirrors the Go locals: the accumulated formula, the
clause being built, the shared `varMap` (threaded through recursive calls),
and the per-call `counter` (restarted at 1 in every call, exactly as in
the source) and `reverseMap` (fresh per call; a recursive call's reverse
map is discarded at satisfier.go:185). -/
def parseCNF : Nat → List Char → List (List Char × Int) → Store →
    Option (CNF × List (List Char × Int) × List (Int × List Char))
  | 0, _, _, _ => none
  | fuel + 1, input, varMap0, store =>
    let clauseStrs := split2 '/' '\\' (input.filter (fun c => !(c == ' ')))
    let res := clauseStrs.foldl (fun acc clauseStr =>
      match acc with
      | none => none
      | some (cnf, vm, ctr, rev) =>
        let litStrs := split2 '\\' '/' (trimCset ['(', ')'] clauseStr)
        let inner := litStrs.foldl (fun acc2 litStr =>
          match acc2 with
          | none => none
          | some (cnf, clause, vm, ctr, rev) =>
            let isNeg := hasPrefixBang litStr
            let tok := trimCset ['!'] litStr
            match lookupStore store tok with
            | some stored =>
              match parseCNF fuel stored vm store with
              | none => none
              | some (subCNF, vm2, _) =>
                if isNeg then
                  some (cnf ++ subCNF.map (fun c => c.map (fun l => -l)),
                    clause, vm2, ctr, rev)
                else
                  some (cnf ++ subCNF, clause, vm2, ctr, rev)
            | none =>
              match lookupVM vm tok with
              | some vid => some (cnf, clause ++ [if isNeg then -vid else vid],
                  vm, ctr, rev)
              | none =>
                some (cnf, clause ++ [if isNeg then -ctr else ctr],
                  vm ++ [(tok, ctr)], ctr + 1, rev ++ [(ctr, tok)])
          ) (some (cnf, ([] : Clause), vm, ctr, rev))
        match inner with
        | none => none
        | some (cnf2, clause, vm2, ctr2, rev2) =>
          some (if clause.isEmpty then cnf2 else cnf2 ++ [clause], vm2, ctr2, rev2)
      ) (some (([] : CNF), varMap0, (1 : Int), ([] : List (Int × List Char))))
    match res with
    | none => none
    | some (cnf, vm, _, rev) => some (cnf, vm, rev)

/-- Scenario D: stored formula `X` whose body references `X` directly. -/
def cycStore : Store := [("X".toList, "(X)".toList)]

/-- A new formula referencing the self-referential stored formula `X`. -/
def cycInput : List Char := "(X)".toList

/-- Store with `R ↦ ("c")` used to exhibit the id collision. -/
def regStore : Store := [("R".toList, "(\"c\")".toList)]

/-- Input interning `"a"` first and then expanding `R`, whose fresh
variable `"c"` is interned by the recursive call with its own counter. -/
def regInput : List Char := "(\"a\") /\\ (R)".toList

/-- Scenario C store: `R` with raw text `(!"j" \/ !"y")`. -/
def scStore : Store := [("R".toList, "(!\"j\" \\/ !\"y\")".toList)]

/-- Scenario C new formula `("R" \/ "j") /\ ("j" \/ "y")`. -/
def scInput : List Char := "(\"R\" \\/ \"j\") /\\ (\"j\" \\/ \"y\")".toList

/-! ### Remaining helper lemmas and decidability instances -/

instance (m : Assg) (l : Int) : Decidable (litTrue m l) := by
  unfold litTrue
  infer_instance

instance (m : Assg) (cnf : CNF) : Decidable (cnfSat m cnf) := by
  unfold cnfSat
  infer_instance

instance (cnf : CNF) : Decidable (noZero cnf) := by
  unfold noZero
  infer_instance

instance instDecEqParseResult :
    DecidableEq (CNF × List (List Char × Int) × List (Int × List Char)) :=
  instDecidableEqProd

theorem cnfSat_to_eval {M : Assg} {cnf : CNF} (h : cnfSat M cnf) :
    evalCNF (fun k => (lookupA M k).getD false) cnf = true := by
  rw [evalCNF, List.all_eq_true]
  intro c hc
  obtain ⟨l, hl, hlt⟩ := h c hc
  rw [evalClause, List.any_eq_true]
  refine ⟨l, hl, ?_⟩
  rcases hlt with ⟨hpos, hlook⟩ | ⟨hneg, hlook⟩
  · rw [evalLit, if_pos hpos, hlook]
    rfl
  · rw [evalLit, if_neg (by omega), hlook]
    rfl

theorem DPLLsnapf_fst_eq : ∀ (n : Nat) (cnf : CNF) (a : Assg),
    Option.map Prod.fst (DPLLsnapf n cnf a) = Option.map Prod.fst (DPLLf n cnf a) := by
  intro n
  induction n with
  | zero => intros; rfl
  | succ fuel ih =>
    intro cnf a
    rcases hUP : UnitPropagation cnf a with ⟨cnf1, a1, ok⟩
    cases ok
    · simp [DPLLsnapf, DPLLf, hUP]
    · rcases hPLE : PureLiteralElimination cnf1 a1 with ⟨cnf2, a2⟩
      by_cases hemp : cnf2 = []
      · simp [DPLLsnapf, DPLLf, hUP, hPLE, hemp]
      · simp only [DPLLsnapf, DPLLf, hUP, hPLE]
        rw [if_neg hemp, if_neg hemp]
        have h1 := ih (assign cnf2 (branchVar cnf2) true) (setA a2 (branchVar cnf2) true)
        rcases hs1 : DPLLsnapf fuel (assign cnf2 (branchVar cnf2) true)
            (setA a2 (branchVar cnf2) true) with _ | ⟨b, m1⟩ <;>
          rcases hr1 : DPLLf fuel (assign cnf2 (branchVar cnf2) true)
            (setA a2 (branchVar cnf2) true) with _ | ⟨b', m1'⟩
        · rfl
        · rw [hs1, hr1] at h1
          simp at h1
        · rw [hs1, hr1] at h1
          simp at h1
        · rw [hs1, hr1] at h1
          have hb : b = b' := by simpa using h1
          subst hb
          cases b
          · calc Option.map Prod.fst (DPLLsnapf fuel
                  (assign cnf2 (branchVar cnf2) false) (setA a2 (branchVar cnf2) false))
                = Option.map Prod.fst (DPLLf fuel
                  (assign cnf2 (branchVar cnf2) false) (setA a2 (branchVar cnf2) false)) :=
                  ih _ _
              _ = Option.map Prod.fst (DPLLf fuel
                  (assign cnf2 (branchVar cnf2) false) (setA m1' (branchVar cnf2) false)) :=
                  DPLLf_fst_indep _ _ _ _
          · rfl

theorem litSkip_eq_false {v : Int} {b : Bool} {l : Int} (h1 : l ≠ v) (h2 : l ≠ -v) :
    litSkip v b l = false := by
  simp [litSkip, h1, h2]

theorem assign_eq_self_of_absent {F : CNF} {v : Int}
    (h : ∀ l ∈ F.flatten, l ≠ v ∧ l ≠ -v) (b : Bool) : assign F v b = F := by
  induction F with
  | nil => rfl
  | cons c rest ih =>
    have hc : ∀ l ∈ c, l ≠ v ∧ l ≠ -v := fun l hl =>
      h l (List.mem_flatten.mpr ⟨c, List.mem_cons_self .., hl⟩)
    have hrest : assign rest v b = rest := ih (fun l hl => by
      rw [List.flatten_cons] at h
      exact h l (List.mem_append.mpr (Or.inr hl)))
    have hskip : (!c.any (litSkip v b)) = true := by
      rw [Bool.not_eq_true', List.any_eq_false]
      intro l hl
      rw [litSkip_eq_false (hc l hl).1 (hc l hl).2]
      simp
    have hfc : c.filter (fun l => l != v && l != -v) = c := by
      rw [List.filter_eq_self]
      intro l hl
      simp [bne_iff_ne, (hc l hl).1, (hc l hl).2]
    calc assign (c :: rest) v b
        = c.filter (fun l => l != v && l != -v) :: assign rest v b := by
          simp only [assign, List.filter_cons, hskip, if_true, List.map_cons]
      _ = c :: rest := by rw [hfc, hrest]

/-! ## Claim theorems -/

/-- Claim C1, counterexample: the claim quantifies over both searches, but
iterativeDPLL can report satisfiable with an assignment under which a clause
of the input has no true literal, because branch decisions are never recorded
in its snapshots.  On `[[2,3],[-2,3],[-3,2]]` it returns the assignment
`{3 ↦ true}`, and the clause `[-3,2]` contains no literal made true by it. -/
theorem C1_counterexample_iterative :
    iterativeDPLL [[2, 3], [-2, 3], [-3, 2]] [] = some (true, [(3, true)]) ∧
      ¬ cnfSat [(3, true)] [[2, 3], [-2, 3], [-3, 2]] := by
  constructor
  · decide
  · decide

/-- Claim C1, amended: soundness holds for the recursive DPLL.  For every
clause set with nonzero literals (the spec's data model) and every initial
assignment map, if `DPLL` returns satisfiable with map `M`, then every
clause of the input contains a literal made true by `M`. -/
theorem C1_dpll_sound (cnf : CNF) (a : Assg) (M : Assg)
    (hz : noZero cnf) (h : DPLL cnf a = some (true, M)) : cnfSat M cnf :=
  DPLLf_sound _ cnf a M hz h

/-- Claim C1 witness: `C1_dpll_sound` applied at a concrete satisfiable
formula, with both hypotheses discharged by evaluation. -/
theorem C1_dpll_sound_witness :
    noZero [[1, 2], [-1, 2], [-2, 1]] ∧
      cnfSat [(1, true), (2, true)] [[1, 2], [-1, 2], [-2, 1]] :=
  ⟨by decide, C1_dpll_sound [[1, 2], [-1, 2], [-2, 1]] [] [(1, true), (2, true)]
    (by decide) (by decide)⟩

/-- Claim C2: on clause sets over at most 16 distinct variables (with
nonzero literals, per the data model), `DPLL` from the empty assignment
returns satisfiable exactly when some total truth assignment makes at
least one literal true in every clause. -/
theorem C2_completeness_small (F : CNF) (hz : noZero F) (hv : varCount F ≤ 16) :
    (∃ M, DPLL F [] = some (true, M)) ↔ (∃ τ, evalCNF τ F = true) := by
  constructor
  · rintro ⟨M, hM⟩
    exact ⟨fun k => (lookupA M k).getD false,
      cnfSat_to_eval (DPLLf_sound _ F [] M hz hM)⟩
  · rintro ⟨τ, hτ⟩
    exact DPLLf_complete (varCount F + 1) F [] (Nat.lt_succ_self _) hz ⟨τ, hτ⟩

/-- Claim C2 witness: the equivalence applied at `[[1,2]]`, whose
satisfiability under the all-true valuation yields the DPLL verdict. -/
theorem C2_completeness_small_witness :
    noZero [[1, 2]] ∧ varCount [[1, 2]] ≤ 16 ∧
      (∃ M, DPLL [[1, 2]] [] = some (true, M)) :=
  ⟨by decide, by decide,
    (C2_completeness_small [[1, 2]] (by decide) (by decide)).mpr
      ⟨fun _ => true, by decide⟩⟩

/-- Claim C3: the code has no cycle detection at all — there is no
CyclicReferenceError anywhere in the source.  On the self-referential
store `X ↦ (X)`, parseCNF recurses unboundedly: the fuelled model returns
no result for any amount of fuel, instead of failing fast with an error. -/
theorem C3_no_cycle_detection : ∀ (n : Nat), parseCNF n cycInput [] cycStore = none := by
  intro n
  induction n with
  | zero => rfl
  | succ fuel ih =>
    simp only [cycInput, cycStore] at ih
    have h1 : "(X)".toList = ['(', 'X', ')'] := rfl
    have h2 : "X".toList = ['X'] := rfl
    rw [h1, h2] at ih
    simp only [parseCNF, cycInput, cycStore, h1, h2]
    simp [split2, trimCset, hasPrefixBang, lookupStore, lookupVM, ih]

/-- Claim C4: the name-to-id mapping is not injective across expansion.
Parsing `("a") /\ (R)` with the stored formula `R ↦ ("c")` interns `"a"`
as id 1 at the top level, and then the recursive call — whose counter
restarts at 1 while the varMap is shared — also interns `"c"` as id 1:
two distinct names receive the same id. -/
theorem C4_registry_collision :
    parseCNF 2 regInput [] regStore =
      some ([[1], [1]],
        [("\"a\"".toList, 1), ("\"c\"".toList, 1)], [(1, "\"a\"".toList)]) ∧
      lookupVM [("\"a\"".toList, 1), ("\"c\"".toList, 1)] "\"a\"".toList = some 1 ∧
      lookupVM [("\"a\"".toList, 1), ("\"c\"".toList, 1)] "\"c\"".toList = some 1 ∧
      "\"a\"".toList ≠ "\"c\"".toList := by
  refine ⟨by decide, by decide, by decide, by decide⟩

/-- Claim C5, counterexample: on `[[1,2],[-1,2],[-2,1]]` the two searches
agree on the verdict but return different assignments — recursive DPLL
records the branch variable 1, iterativeDPLL never records branch
variables, so its result lacks any binding for 1. -/
theorem C5_counterexample_assignments :
    DPLL [[1, 2], [-1, 2], [-2, 1]] [] = some (true, [(1, true), (2, true)]) ∧
      iterativeDPLL [[1, 2], [-1, 2], [-2, 1]] [] = some (true, [(2, true)]) ∧
      lookupA [(1, true), (2, true)] 1 = some true ∧
      lookupA [(2, true)] 1 = none := by
  refine ⟨by decide, by decide, by decide, by decide⟩

/-- Claim C5, amended: for every clause set and initial assignment the two
control strategies return the identical satisfiability verdict (the
returned assignments may differ, as the counterexample shows). -/
theorem C5_verdict_equivalence (cnf : CNF) (a : Assg) :
    Option.map Prod.fst (iterativeDPLL cnf a) = Option.map Prod.fst (DPLL cnf a) := by
  have hfu : iterFuel [(cnf, copyAssignment a)] < iterFuel [(cnf, a)] + 1 :=
    Nat.lt_succ_self _
  obtain ⟨m, hm⟩ := iterLoopF_run (iterFuel [(cnf, a)] + 1) [(cnf, copyAssignment a)] a hfu
  obtain ⟨m', hm'⟩ := DPLLf_verdict (varCount cnf + 1) cnf a (Nat.lt_succ_self _)
  rw [iterativeDPLL, hm, DPLL, hm']
  simp [copyAssignment]

/-- Claim C6, counterexample: in recursive DPLL the assignment map is
shared between sibling branches.  On `[[1,3],[-1,2],[-1,-2],[3,2],[3,-2]]`
the failed true branch records `2 ↦ true`, and that record survives into
the result of the false branch; the snapshot-respecting variant described
by the spec (`DPLLsnap`) returns a result with no binding for 2. -/
theorem C6_counterexample_shared_map :
    DPLL [[1, 3], [-1, 2], [-1, -2], [3, 2], [3, -2]] [] =
      some (true, [(3, true), (1, false), (2, true)]) ∧
      DPLLsnap [[1, 3], [-1, 2], [-1, -2], [3, 2], [3, -2]] [] =
        some (true, [(3, true), (1, false)]) ∧
      lookupA [(3, true), (1, false), (2, true)] 2 = some true ∧
      lookupA [(3, true), (1, false)] 2 = none := by
  refine ⟨by decide, by decide, by decide, by decide⟩

/-- Claim C6, amended: the clause set explored in each branch is an
independent value, and the shared assignment map never influences the
search — the verdict is independent of the assignment state, and the
snapshot-respecting variant computes the same verdict as the code's
shared-map recursion; only the reported assignment differs. -/
theorem C6_search_unaffected_by_shared_map (cnf : CNF) (a a' : Assg) :
    Option.map Prod.fst (DPLL cnf a) = Option.map Prod.fst (DPLL cnf a') ∧
      Option.map Prod.fst (DPLLsnap cnf a) = Option.map Prod.fst (DPLL cnf a) :=
  ⟨DPLLf_fst_indep _ cnf a a', DPLLsnapf_fst_eq _ cnf a⟩

/-- Claim C7: Scenario C does not expand at all.  The store key is the
unquoted name `R`, but parseCNF looks the token up with its quotes, so
`"R"` is interned as a fresh variable (id 1) and the parse result is
`[[1,2],[2,3]]` — not the claimed clauses `[-j,-y,j]` and `[j,y]`.  The
engine still reports SATISFIABLE on the parsed clause set. -/
theorem C7_scenario_c_divergence :
    parseCNF 2 scInput [] scStore =
      some ([[1, 2], [2, 3]],
        [("\"R\"".toList, 1), ("\"j\"".toList, 2), ("\"y\"".toList, 3)],
        [(1, "\"R\"".toList), (2, "\"j\"".toList), (3, "\"y\"".toList)]) ∧
      DPLL [[1, 2], [2, 3]] [] = some (true, [(1, true), (2, true), (3, true)]) := by
  refine ⟨by decide, by decide⟩

/-- Claim C8: when UnitPropagation reports ok, the returned clause set has
no unit clause and no empty clause; and it reports conflict exactly when
the simplified clause set contains an empty clause. -/
theorem C8_unit_propagation_post (cnf : CNF) (a : Assg) (cnf1 : CNF) (a1 : Assg)
    (ok : Bool) (h : UnitPropagation cnf a = (cnf1, a1, ok)) :
    (ok = true → ∀ c ∈ cnf1, c.length ≠ 1 ∧ c ≠ []) ∧ (ok = false ↔ [] ∈ cnf1) := by
  have hfst : (UnitPropagation cnf a).1 = cnf1 := by rw [h]
  have hok : (UnitPropagation cnf a).2.2 = ok := by rw [h]
  constructor
  · intro hoktrue c hc
    refine ⟨UP_no_unit cnf a c (by rw [hfst]; exact hc), ?_⟩
    have := (UP_ok_iff cnf a).mp (by rw [hok, hoktrue])
    exact this c (by rw [hfst]; exact hc)
  · constructor
    · intro hokfalse
      by_contra hne
      have htrue : (UnitPropagation cnf a).2.2 = true := (UP_ok_iff cnf a).mpr (by
        rw [hfst]
        intro c hc hceq
        exact hne (hceq ▸ hc))
      rw [hok, hokfalse] at htrue
      exact Bool.false_ne_true htrue
    · intro hmem
      by_contra hne
      have hoktrue : ok = true := by
        cases ok
        · exact absurd rfl hne
        · rfl
      have := (UP_ok_iff cnf a).mp (by rw [hok, hoktrue])
      exact this [] (by rw [hfst]; exact hmem) rfl

/-- Claim C8 witness: `C8_unit_propagation_post` applied at the concrete
run `UnitPropagation [[1],[2,3]] [] = ([[2,3]], [(1,true)], true)`. -/
theorem C8_unit_propagation_post_witness :
    (true = true → ∀ c ∈ [[(2 : Int), 3]], c.length ≠ 1 ∧ c ≠ []) ∧
      (true = false ↔ [] ∈ [[(2 : Int), 3]]) :=
  C8_unit_propagation_post [[1], [2, 3]] [] [[2, 3]] [(1, true)] true (by decide)

/-- Claim C9: the search terminates on every input clause set: `DPLL`,
which runs `DPLLf` with fuel `varCount cnf + 1` — one unit more than the
number of distinct variables, the bound on branching depth — always
returns a result. -/
theorem C9_termination (cnf : CNF) (a : Assg) : ∃ r, DPLL cnf a = some r :=
  Option.isSome_iff_exists.mp
    (DPLLf_isSome (varCount cnf + 1) cnf a (Nat.lt_succ_self _))

/-- Claim C10: when neither literal of variable `v` occurs in `F`,
`assign F v b` is `F` itself for both values; in particular re-applying
`assign` to an already-eliminated variable leaves the formula unchanged
(`assign` is a pure function of its arguments in this model, matching the
source's discipline of building a fresh slice). -/
theorem C10_assign_idempotent (F : CNF) (v : Int)
    (h : ∀ c ∈ F, ∀ l ∈ c, l ≠ v ∧ l ≠ -v) :
    (∀ b, assign F v b = F) ∧
      (∀ (F0 : CNF) (b0 b : Bool), assign (assign F0 v b0) v b = assign F0 v b0) := by
  constructor
  · intro b
    apply assign_eq_self_of_absent (fun l hl => ?_)
    obtain ⟨c, hc, hlc⟩ := List.mem_flatten.mp hl
    exact h c hc l hlc
  · intro F0 b0 b
    exact assign_eq_self_of_absent (fun l hl => (mem_flatten_assign hl).2) b

/-- Claim C10 witness: the theorem applied at `F = [[1,2]]`, `v = 3`,
evaluating both conclusions at concrete inputs. -/
theorem C10_assign_idempotent_witness :
    assign [[1, 2]] 3 true = [[1, 2]] ∧
      assign (assign [[1, -3]] 3 true) 3 false = assign [[1, -3]] 3 true :=
  ⟨(C10_assign_idempotent [[1, 2]] 3 (by decide)).1 true,
   (C10_assign_idempotent [[1, 2]] 3 (by decide)).2 [[1, -3]] true false⟩

end Satisfier
